import Mathlib

/-!
Verification of `prosemirror/transform/map.py` (position mapping for
ProseMirror transforms): `StepMap` (RangeMap) and `Mapping` (MapChain).

Embedding conventions:
* Python ints are modelled as `Int` (positions, range entries, diffs) or
  `Nat` (list indices, packed recovery tokens, deletion-flag bitmasks —
  all of which are nonnegative at every use site in the source).
* Python lists are `List _`; out-of-range reads that cannot occur on
  well-formed data are modelled with `List.getD`, and loops that the
  source can only run off the end of a list on malformed input are
  modelled by the corresponding total recursion.  Where a claim depends
  on an actual Python `IndexError` (e.g. `append_mapping`), the access
  is modelled with `List.get?` and the function returns an `Option`.
* Loops with an index are modelled as structural recursion on an exact
  fuel value (the number of iterations the Python loop performs).
-/

/-- `lower16 = 0xFFFF` from the source. -/
def lower16 : Nat := 0xFFFF

/-- `factor16 = 2**16` from the source. -/
def factor16 : Nat := 2 ^ 16

/-- `make_recover(index, offset) = int(index + offset * factor16)`.
The Python detour through float arithmetic (`index` arrives as `i / 3`)
is exact for the magnitudes reachable here; modelled as exact `Nat`
arithmetic (both arguments are nonnegative at every call site). -/
def make_recover (index offset : Nat) : Nat := index + offset * factor16

/-- `recover_index(value) = value & lower16`. -/
def recover_index (value : Nat) : Nat := value &&& lower16

/-- `recover_offset(value) = int((value - (value & lower16)) / factor16)`;
the division is exact because the numerator is a multiple of `factor16`. -/
def recover_offset (value : Nat) : Nat := (value - (value &&& lower16)) / factor16

def DEL_BEFORE : Nat := 1
def DEL_AFTER : Nat := 2
def DEL_ACROSS : Nat := 4
def DEL_SIDE : Nat := 8

/-- `MapResult(pos, del_info, recover)` from the source. -/
structure MapResult where
  pos : Int
  del_info : Nat
  recover : Option Nat
deriving DecidableEq, Repr

/-- `StepMap(ranges, inverted)` from the source: a flat list of
`(start, oldSize, newSize)` triples plus a direction flag. -/
structure StepMap where
  ranges : List Int
  inverted : Bool
deriving DecidableEq, Repr

/-- The summation loop of `StepMap.recover`:
`for i in range(index): diff += ranges[i*3+2] - ranges[i*3+1]`. -/
def recoverDiffGo (ranges : List Int) : Nat → Int
  | 0 => 0
  | n + 1 => recoverDiffGo ranges n + (ranges.getD (n * 3 + 2) 0 - ranges.getD (n * 3 + 1) 0)

/-- `StepMap.recover(value)` from the source. -/
def StepMap.recover (m : StepMap) (value : Nat) : Int :=
  let index := recover_index value
  let diff : Int := if m.inverted then 0 else recoverDiffGo m.ranges index
  m.ranges.getD (index * 3) 0 + diff + (recover_offset value : Int)

/-- The scan loop of `StepMap._map` with `simple=True`.  The list
argument is the tail of `ranges` starting at the current loop index;
`diff` is the running accumulator. -/
def mapSimpleGo (inverted : Bool) (pos assoc : Int) : List Int → Int → Int
  | a :: b :: c :: rest, diff =>
    let start := a - (if inverted then diff else 0)
    if start > pos then pos + diff
    else
      let oldSize := if inverted then c else b
      let newSize := if inverted then b else c
      let endPos := start + oldSize
      if pos ≤ endPos then
        let side : Int :=
          if oldSize = 0 then assoc
          else if pos = start then -1
          else if pos = endPos then 1
          else assoc
        start + diff + (if side < 0 then 0 else newSize)
      else mapSimpleGo inverted pos assoc rest (diff + newSize - oldSize)
  | _, diff => pos + diff

/-- The scan loop of `StepMap._map` with `simple=False`; `index` counts
triples (the source's `i / 3`). -/
def mapResultGo (inverted : Bool) (pos assoc : Int) : List Int → Int → Nat → MapResult
  | a :: b :: c :: rest, diff, index =>
    let start := a - (if inverted then diff else 0)
    if start > pos then ⟨pos + diff, 0, none⟩
    else
      let oldSize := if inverted then c else b
      let newSize := if inverted then b else c
      let endPos := start + oldSize
      if pos ≤ endPos then
        let side : Int :=
          if oldSize = 0 then assoc
          else if pos = start then -1
          else if pos = endPos then 1
          else assoc
        let result := start + diff + (if side < 0 then 0 else newSize)
        let recover : Option Nat :=
          if pos = (if assoc < 0 then start else endPos) then none
          else some (make_recover index (pos - start).toNat)
        let delInfo :=
          if pos = start then DEL_AFTER
          else if pos = endPos then DEL_BEFORE
          else DEL_ACROSS
        let delInfo :=
          if (if assoc < 0 then pos ≠ start else pos ≠ endPos) then delInfo ||| DEL_SIDE
          else delInfo
        ⟨result, delInfo, recover⟩
      else mapResultGo inverted pos assoc rest (diff + newSize - oldSize) (index + 1)
  | _, diff, _ => ⟨pos + diff, 0, none⟩

/-- `StepMap.map(pos, assoc)` (the `simple=True` path of `_map`). -/
def StepMap.map (m : StepMap) (pos : Int) (assoc : Int) : Int :=
  mapSimpleGo m.inverted pos assoc m.ranges 0

/-- `StepMap.map_result(pos, assoc)` (the `simple=False` path of `_map`). -/
def StepMap.map_result (m : StepMap) (pos : Int) (assoc : Int) : MapResult :=
  mapResultGo m.inverted pos assoc m.ranges 0 0

/-- The loop of `StepMap.touches`.  The source reads
`for i in range(len(self.ranges), 3)`, i.e. `i` runs from
`len(self.ranges)` up to (excluding) `3` in steps of `1`; the fuel is
exactly the iteration count `3 - i` of that loop. -/
def touchesGo (ranges : List Int) (inverted : Bool) (pos : Int) (index : Nat) :
    Nat → Nat → Int → Bool
  | 0, _, _ => false
  | fuel + 1, i, diff =>
    let start := ranges.getD i 0 - (if inverted then diff else 0)
    if start > pos then false
    else
      let oldIndex := if inverted then 2 else 1
      let newIndex := if inverted then 1 else 2
      let oldSize := ranges.getD (i + oldIndex) 0
      let endPos := start + oldSize
      if pos ≤ endPos ∧ i = index * 3 then true
      else touchesGo ranges inverted pos index fuel (i + 1)
        (diff + ranges.getD (i + newIndex) 0 - oldSize)

/-- `StepMap.touches(pos, recover)` from the source (including its
`range(len(self.ranges), 3)` loop header). -/
def StepMap.touches (m : StepMap) (pos : Int) (recover : Nat) : Bool :=
  touchesGo m.ranges m.inverted pos (recover_index recover)
    (3 - m.ranges.length) m.ranges.length 0

/-- `StepMap.invert()` from the source. -/
def StepMap.invert (m : StepMap) : StepMap := ⟨m.ranges, !m.inverted⟩

/-- `StepMap.empty = StepMap([])`. -/
def StepMap.empty : StepMap := ⟨[], false⟩

/-- `Mapping(maps, mirror, from_, to)` from the source.  A Python
`mirror` of `None` and an empty list are both falsy and behave
identically in every method, so `mirror` is modelled as a plain list.
`from_`/`to` are list indices and are modelled as `Nat`. -/
structure Mapping where
  maps : List StepMap
  mirror : List Nat
  from_ : Nat
  -- Python attribute name: `to`
  to_ : Nat
deriving DecidableEq, Repr

/-- The loop of `Mapping.get_mirror`:
`for i in range(len(self.mirror))`, returning the partner entry at
`i + (-1 if i % 2 else 1)` on a hit.  Fuel is the remaining iteration
count (`len(mirror) - i`). -/
def getMirrorGo (mirror : List Nat) (n : Nat) : Nat → Nat → Option Nat
  | 0, _ => none
  | fuel + 1, i =>
    if mirror.getD i 0 = n then
      some (mirror.getD (if i % 2 = 1 then i - 1 else i + 1) 0)
    else getMirrorGo mirror n fuel (i + 1)

/-- `Mapping.get_mirror(n)` from the source (a falsy `mirror` yields
`None`, which the fuel-0 base case already produces). -/
def Mapping.get_mirror (m : Mapping) (n : Nat) : Option Nat :=
  getMirrorGo m.mirror n m.mirror.length 0

/-- `Mapping.set_mirror(n, m)` from the source, functionally. -/
def Mapping.set_mirror (m : Mapping) (n mr : Nat) : Mapping :=
  { m with mirror := m.mirror ++ [n, mr] }

/-- `Mapping.append_map(map, mirrors)` from the source, functionally:
append one map, reset `to` to the new length, optionally register a
mirror pair. -/
def Mapping.append_map (m : Mapping) (mp : StepMap) (mirrors : Option Nat) : Mapping :=
  let m' : Mapping := { m with maps := m.maps ++ [mp], to_ := m.maps.length + 1 }
  match mirrors with
  | some mr => m'.set_mirror (m'.maps.length - 1) mr
  | none => m'

/-- The loop of `Mapping.append_mapping`.  The source increments `i`
*before* reading `mapping.maps[i]`; that read is modelled with
`List.get?`, and `none` models the Python `IndexError` raised when the
incremented index reaches `len(mapping.maps)`.  Fuel is the remaining
iteration count (`len(mapping.maps) - i`). -/
def appendMappingGo (other : Mapping) (startSize : Nat) : Nat → Nat → Mapping → Option Mapping
  | 0, _, self => some self
  | fuel + 1, i, self =>
    let mirr := other.get_mirror i
    let i' := i + 1
    match other.maps.get? i' with
    | none => none
    | some mp =>
      let mir : Option Nat :=
        match mirr with
        | some mr => if mr < i' then some (startSize + mr) else none
        | none => none
      appendMappingGo other startSize fuel i' (self.append_map mp mir)

/-- `Mapping.append_mapping(mapping)` from the source, functionally;
`none` models an `IndexError`. -/
def Mapping.append_mapping (self other : Mapping) : Option Mapping :=
  appendMappingGo other self.maps.length other.maps.length 0 self

/-- The fold of `Mapping.map` without mirrors:
`for i in range(self.from_, self.to): pos = self.maps[i].map(pos, assoc)`.
Fuel is the exact iteration count `to - from_`. -/
def mapFoldGo (maps : List StepMap) (assoc : Int) : Nat → Nat → Int → Int
  | 0, _, pos => pos
  | fuel + 1, i, pos => mapFoldGo maps assoc fuel (i + 1) ((maps.getD i StepMap.empty).map pos assoc)

/-- The loop of `Mapping._map`: per-step metadata mapping with the
mirror jump (`i = corr; pos = maps[corr].recover(...); i += 1`).  Fuel
bounds the iteration count; the loop itself exits on `i ≥ to`, and
since `i` strictly increases each iteration, `to - from_` fuel always
suffices. -/
def mappingGo (m : Mapping) (assoc : Int) : Nat → Nat → Int → Nat → Int × Nat
  | 0, _, pos, delInfo => (pos, delInfo)
  | fuel + 1, i, pos, delInfo =>
    if i < m.to_ then
      let result := (m.maps.getD i StepMap.empty).map_result pos assoc
      match result.recover with
      | some rv =>
        match m.get_mirror i with
        | some corr =>
          if corr > i ∧ corr < m.to_ then
            mappingGo m assoc fuel (corr + 1) ((m.maps.getD corr StepMap.empty).recover rv) delInfo
          else
            mappingGo m assoc fuel (i + 1) result.pos (delInfo ||| result.del_info)
        | none => mappingGo m assoc fuel (i + 1) result.pos (delInfo ||| result.del_info)
      | none => mappingGo m assoc fuel (i + 1) result.pos (delInfo ||| result.del_info)
    else (pos, delInfo)

/-- `Mapping.map(pos, assoc)` from the source: `_map` when `mirror` is
truthy, otherwise the plain fold. -/
def Mapping.map (m : Mapping) (pos : Int) (assoc : Int) : Int :=
  if m.mirror.isEmpty then mapFoldGo m.maps assoc (m.to_ - m.from_) m.from_ pos
  else (mappingGo m assoc (m.to_ - m.from_) m.from_ pos 0).1

/-- `Mapping.map_result(pos, assoc)` from the source (`_map` with
`simple=False`: final position, accumulated flags, no recover). -/
def Mapping.map_result (m : Mapping) (pos : Int) (assoc : Int) : MapResult :=
  let r := mappingGo m assoc (m.to_ - m.from_) m.from_ pos 0
  ⟨r.1, r.2, none⟩

/-- `recoverDiffGo` computes the sum of `newSize - oldSize` over the
ranges strictly before the given index. -/
theorem recoverDiffGo_eq_sum (ranges : List Int) (n : Nat) :
    recoverDiffGo ranges n =
      ∑ i ∈ Finset.range n, (ranges.getD (i * 3 + 2) 0 - ranges.getD (i * 3 + 1) 0) := by
  induction n with
  | zero => simp [recoverDiffGo]
  | succ k ih => rw [Finset.sum_range_succ, ← ih, recoverDiffGo]

/-- C1: for the chain holding StepMap A = `[2,4,0]` at index 0 and
StepMap B = `[2,0,4]` at index 1 with 0 and 1 a mirror pair, `map` and
`map_result` send position 4 to 4 under either associativity; the value
is produced by `B.recover` applied to A's recovery token, not by
collapsing to the deletion boundary 2. -/
theorem C1_mirror_recovery :
    (Mapping.mk [⟨[2, 4, 0], false⟩, ⟨[2, 0, 4], false⟩] [0, 1] 0 2).map 4 1 = 4 ∧
    (Mapping.mk [⟨[2, 4, 0], false⟩, ⟨[2, 0, 4], false⟩] [0, 1] 0 2).map 4 (-1) = 4 ∧
    ((Mapping.mk [⟨[2, 4, 0], false⟩, ⟨[2, 0, 4], false⟩] [0, 1] 0 2).map_result 4 1).pos = 4 ∧
    ((Mapping.mk [⟨[2, 4, 0], false⟩, ⟨[2, 0, 4], false⟩] [0, 1] 0 2).map_result 4 (-1)).pos = 4 ∧
    ((StepMap.mk [2, 4, 0] false).map_result 4 1).recover = some (make_recover 0 2) ∧
    (StepMap.mk [2, 0, 4] false).recover (make_recover 0 2) = 4 := by
  decide

/-- C2: the `touches` loop header `for i in range(len(self.ranges), 3)`
never executes its body for a real (length ≥ 3) range list, so `touches`
answers `false` even for a position that lies inside the range named by
the recovery token — here `map_result` itself hands out that very token
for position 2 of the range `[2,4,0]`. -/
theorem C2_touches_loop_bug :
    (StepMap.mk [2, 4, 0] false).touches 2 (make_recover 0 0) = false ∧
    ((StepMap.mk [2, 4, 0] false).map_result 2 1).recover = some (make_recover 0 0) := by
  decide

/-- C3: `append_mapping` reads `mapping.maps[i]` after having already
incremented `i`, so appending any nonempty chain skips its first map and
finally indexes one past the end — an `IndexError` (modelled as `none`)
— even in the smallest case of a single-map argument chain. -/
theorem C3_append_mapping_raises :
    (Mapping.mk [] [] 0 0).append_mapping
      (Mapping.mk [⟨[0, 0, 1], false⟩] [] 0 1) = none := by
  decide

/-- C4 (counterexample): for the StepMap `[5,2,4]`, `map(5, +1)` returns
5, not 9 as claimed — `pos == start` of a non-empty range forces
`side = -1` regardless of the associativity argument. -/
theorem C4_counterexample :
    (StepMap.mk [5, 2, 4] false).map 5 1 = 5 := by decide

/-- C4 (amended): for the StepMap `[5,2,4]`, both `map(5, -1)` and
`map(5, +1)` return 5: the start boundary of a non-empty deleted range
is insensitive to the associativity argument. -/
theorem C4_amended :
    (StepMap.mk [5, 2, 4] false).map 5 (-1) = 5 ∧
    (StepMap.mk [5, 2, 4] false).map 5 1 = 5 := by decide

/-- C8: mapping through a StepMap with empty ranges (in either
direction, including `StepMap.empty`) or through a Mapping with no maps
is the identity for every position and associativity, and `map_result`
reports zero deletion flags and no recovery token. -/
theorem C8_empty_identity (inverted : Bool) (p a : Int) :
    (StepMap.mk [] inverted).map p a = p ∧
    (StepMap.mk [] inverted).map_result p a = ⟨p, 0, none⟩ ∧
    StepMap.empty.map p a = p ∧
    (Mapping.mk [] [] 0 0).map p a = p ∧
    (Mapping.mk [] [] 0 0).map_result p a = ⟨p, 0, none⟩ := by
  refine ⟨?_, ?_, ?_, ?_, ?_⟩ <;>
    simp [StepMap.map, StepMap.map_result, StepMap.empty, Mapping.map, Mapping.map_result,
      mapSimpleGo, mapResultGo, mapFoldGo, mappingGo]

/-- C9 (counterexample): `make_recover` accepts a range index that does
not fit in 16 bits without any assertion or error, and the packing then
truncates silently: index 65536 comes back as 0. -/
theorem C9_counterexample :
    make_recover 65536 0 = 65536 ∧ recover_index (make_recover 65536 0) = 0 := by
  decide

/-- C9 (amended): no loud failure exists; the unpack/pack round-trip
holds exactly when the index fits in the lower 16 bits — for every
`index < 2^16` and every offset, `recover_index` and `recover_offset`
invert `make_recover`. -/
theorem C9_amended (index offset : Nat) (h : index < 65536) :
    recover_index (make_recover index offset) = index ∧
    recover_offset (make_recover index offset) = offset := by
  have hand : (index + offset * factor16) &&& lower16 = index := by
    have h1 : (index + offset * factor16) &&& lower16 =
        (index + offset * factor16) % 2 ^ 16 := by
      rw [show lower16 = 2 ^ 16 - 1 from by decide, Nat.and_pow_two_sub_one_eq_mod]
    rw [h1, show factor16 = 2 ^ 16 from rfl, Nat.add_mul_mod_self_right,
      Nat.mod_eq_of_lt (by omega : index < 2 ^ 16)]
  constructor
  · exact hand
  · show (make_recover index offset - (make_recover index offset &&& lower16)) / factor16 = offset
    rw [show make_recover index offset = index + offset * factor16 from rfl, hand,
      Nat.add_sub_cancel_left, Nat.mul_div_cancel _ (by decide : 0 < factor16)]

/-- C9 (witness): the amended round-trip at index 3, offset 7. -/
theorem C9_witness :
    recover_index (make_recover 3 7) = 3 ∧ recover_offset (make_recover 3 7) = 7 :=
  C9_amended 3 7 (by decide)

/-- C6: `recover` returns `ranges[index*3] + diff + offset`, where
`diff` is the sum of `newSize - oldSize` over the ranges strictly
before `index` for a non-inverted map and zero (the loop is skipped)
for an inverted one. -/
theorem C6_recover_formula (m : StepMap) (value : Nat) :
    m.recover value =
      m.ranges.getD (recover_index value * 3) 0 +
        (if m.inverted then 0 else
          ∑ i ∈ Finset.range (recover_index value),
            (m.ranges.getD (i * 3 + 2) 0 - m.ranges.getD (i * 3 + 1) 0)) +
        (recover_offset value : Int) := by
  simp only [StepMap.recover, recoverDiffGo_eq_sum]

/-- The range-locating part of `StepMap._map`'s scan, extracted: the
`(start, oldSize, newSize, diff)` of the range the scan stops in
(`start` already adjusted for direction, `diff` the accumulated size
change of the ranges before it), or `none` when the scan falls through
every range. -/
def findHitGo (inverted : Bool) (pos : Int) : List Int → Int → Option (Int × Int × Int × Int)
  | a :: b :: c :: rest, diff =>
    let start := a - (if inverted then diff else 0)
    if start > pos then none
    else
      let oldSize := if inverted then c else b
      let newSize := if inverted then b else c
      if pos ≤ start + oldSize then some (start, oldSize, newSize, diff)
      else findHitGo inverted pos rest (diff + newSize - oldSize)
  | _, _ => none

def StepMap.findHit (m : StepMap) (pos : Int) : Option (Int × Int × Int × Int) :=
  findHitGo m.inverted pos m.ranges 0

/-- The side policy of `StepMap._map`: the caller's `assoc` for a
zero-size range, `-1` at the start boundary, `+1` at the end boundary,
`assoc` strictly inside. -/
def sideOf (oldSize start pos assoc : Int) : Int :=
  if oldSize = 0 then assoc
  else if pos = start then -1
  else if pos = start + oldSize then 1
  else assoc

theorem mapSimpleGo_of_findHit (inverted : Bool) (pos assoc : Int) :
    ∀ (rs : List Int) (d s o n dd : Int),
      findHitGo inverted pos rs d = some (s, o, n, dd) →
      mapSimpleGo inverted pos assoc rs d =
        s + dd + (if sideOf o s pos assoc < 0 then 0 else n)
  | [], _, _, _, _, _, h => by simp [findHitGo] at h
  | [_], _, _, _, _, _, h => by simp [findHitGo] at h
  | [_, _], _, _, _, _, _, h => by simp [findHitGo] at h
  | a :: b :: c :: rest, d, s, o, n, dd, h => by
    simp only [findHitGo] at h
    simp only [mapSimpleGo]
    by_cases h1 : a - (if inverted then d else 0) > pos
    · simp [h1] at h
    · simp only [if_neg h1] at h ⊢
      by_cases h2 : pos ≤ a - (if inverted then d else 0) + (if inverted then c else b)
      · simp only [if_pos h2, Option.some.injEq, Prod.mk.injEq] at h
        obtain ⟨rfl, rfl, rfl, rfl⟩ := h
        rw [if_pos h2]
        simp only [sideOf]
      · simp only [if_neg h2] at h ⊢
        exact mapSimpleGo_of_findHit inverted pos assoc rest _ s o n dd h

/-- C5: whenever the scan of `_map` stops in a range — `findHit`
returns its `(start, oldSize, newSize, diff)` — the mapped position is
`start + diff + (0 if side < 0 else newSize)` with `side` given by
`sideOf`; consequently the end boundary of a non-empty range maps to
`start + diff + newSize` under both associativities. -/
theorem C5_side_formula (m : StepMap) (pos assoc s o n d : Int)
    (h : m.findHit pos = some (s, o, n, d)) :
    m.map pos assoc = s + d + (if sideOf o s pos assoc < 0 then 0 else n) ∧
    (o ≠ 0 → pos = s + o → m.map pos assoc = s + d + n) := by
  have h1 := mapSimpleGo_of_findHit m.inverted pos assoc m.ranges 0 s o n d h
  refine ⟨h1, fun ho hpos => ?_⟩
  rw [show m.map pos assoc = mapSimpleGo m.inverted pos assoc m.ranges 0 from rfl, h1]
  have hside : sideOf o s pos assoc = 1 := by
    unfold sideOf
    rw [if_neg ho, hpos, if_neg (by omega : s + o ≠ s), if_pos rfl]
  rw [hside]
  norm_num

/-- C5 (witness): the end boundary 7 of the range `[5,2,4]` maps to
`5 + 0 + 4 = 9` under `assoc = -1`. -/
theorem C5_witness : (StepMap.mk [5, 2, 4] false).map 7 (-1) = 5 + 0 + 4 :=
  (C5_side_formula (StepMap.mk [5, 2, 4] false) 7 (-1) 5 2 4 0 (by decide)).2
    (by decide) (by decide)

/-- Unfolding equation of the `simple` scan on a non-inverted map. -/
theorem mapSimpleGo_false_cons (pos assoc a b c : Int) (rest : List Int) (d : Int) :
    mapSimpleGo false pos assoc (a :: b :: c :: rest) d =
      if a > pos then pos + d
      else if pos ≤ a + b then a + d + (if sideOf b a pos assoc < 0 then 0 else c)
      else mapSimpleGo false pos assoc rest (d + c - b) := by
  simp only [mapSimpleGo, sideOf, Bool.false_eq_true, if_false, sub_zero]

/-- Unfolding equation of the `simple` scan on an inverted map. -/
theorem mapSimpleGo_true_cons (pos assoc a b c : Int) (rest : List Int) (d : Int) :
    mapSimpleGo true pos assoc (a :: b :: c :: rest) d =
      if a - d > pos then pos + d
      else if pos ≤ a - d + c then a - d + d + (if sideOf c (a - d) pos assoc < 0 then 0 else b)
      else mapSimpleGo true pos assoc rest (d + b - c) := by
  simp only [mapSimpleGo, sideOf, if_true]

/-- Unfolding equation of `findHitGo` on a non-inverted map. -/
theorem findHitGo_false_cons (pos a b c : Int) (rest : List Int) (d : Int) :
    findHitGo false pos (a :: b :: c :: rest) d =
      if a > pos then none
      else if pos ≤ a + b then some (a, b, c, d)
      else findHitGo false pos rest (d + c - b) := by
  simp only [findHitGo, Bool.false_eq_true, if_false, sub_zero]

/-- Unfolding equation of `findHitGo` on an inverted map. -/
theorem findHitGo_true_cons (pos a b c : Int) (rest : List Int) (d : Int) :
    findHitGo true pos (a :: b :: c :: rest) d =
      if a - d > pos then none
      else if pos ≤ a - d + c then some (a - d, c, b, d)
      else findHitGo true pos rest (d + b - c) := by
  simp only [findHitGo, if_true]

/-- On a non-inverted map the accumulator enters the result only
additively. -/
theorem mapSimpleGo_shift (pos assoc : Int) :
    ∀ (rs : List Int) (d : Int),
      mapSimpleGo false pos assoc rs d = mapSimpleGo false pos assoc rs 0 + d
  | [], d => by simp [mapSimpleGo]
  | [_], d => by simp [mapSimpleGo]
  | [_, _], d => by simp [mapSimpleGo]
  | a :: b :: c :: rest, d => by
    rw [mapSimpleGo_false_cons, mapSimpleGo_false_cons]
    by_cases h1 : a > pos
    · rw [if_pos h1, if_pos h1]; ring
    · rw [if_neg h1, if_neg h1]
      by_cases h2 : pos ≤ a + b
      · rw [if_pos h2, if_pos h2]; ring
      · rw [if_neg h2, if_neg h2, mapSimpleGo_shift pos assoc rest (d + c - b),
          mapSimpleGo_shift pos assoc rest (0 + c - b)]
        ring

/-- Whether the non-inverted scan falls through does not depend on the
accumulator. -/
theorem findHitGo_false_none_shift (pos : Int) :
    ∀ (rs : List Int) (d e : Int),
      (findHitGo false pos rs d = none ↔ findHitGo false pos rs e = none)
  | [], _, _ => Iff.rfl
  | [_], _, _ => Iff.rfl
  | [_, _], _, _ => Iff.rfl
  | a :: b :: c :: rest, d, e => by
    rw [findHitGo_false_cons, findHitGo_false_cons]
    split_ifs with h1 h2
    · exact Iff.rfl
    · simp
    · exact findHitGo_false_none_shift pos rest (d + c - b) (e + c - b)

/-- Lower bound on the start of the first range, if any. -/
def startLB (lo : Int) : List Int → Bool
  | a :: _ => decide (lo ≤ a)
  | [] => true

/-- Modelled from the spec (§3 data model): ranges are triples, sizes
are nonnegative, and ranges are non-overlapping and sorted by start —
each range starts no earlier than where the previous one ends
(`start + oldSize`).  This is the documented invariant of valid
`StepMap`s, assumed well-formed by §7; the code never checks it. -/
def wfRanges : List Int → Bool
  | [] => true
  | a :: b :: c :: rest =>
    decide (0 ≤ b) && decide (0 ≤ c) && startLB (a + b) rest && wfRanges rest
  | _ => false

/-- The range table of an inverted map, re-expressed as the table of an
equivalent non-inverted map: each start is shifted into the inverted
map's query coordinate space and the two sizes are swapped. -/
def invList : List Int → Int → List Int
  | a :: b :: c :: rest, d => (a + d) :: c :: b :: invList rest (d + (c - b))
  | other, _ => other

/-- `invList` is an involution. -/
theorem invList_invList : ∀ (rs : List Int) (d : Int), invList (invList rs d) (-d) = rs
  | [], _ => rfl
  | [_], _ => rfl
  | [_, _], _ => rfl
  | a :: b :: c :: rest, d => by
    simp only [invList]
    rw [show a + d + -d = a from by ring, show -d + (b - c) = -(d + (c - b)) from by ring,
      invList_invList rest (d + (c - b))]

/-- `invList` preserves well-formedness: in the inverted coordinate
space the ranges are again sorted and non-overlapping. -/
theorem wfRanges_invList : ∀ (rs : List Int) (d : Int),
    wfRanges rs = true → wfRanges (invList rs d) = true
  | [], _, _ => rfl
  | [_], _, h => by simp [wfRanges] at h
  | [_, _], _, h => by simp [wfRanges] at h
  | a :: b :: c :: rest, d, h => by
    simp only [wfRanges, Bool.and_eq_true, decide_eq_true_eq] at h
    obtain ⟨⟨⟨hb, hc⟩, hs⟩, hwfr⟩ := h
    have ih := wfRanges_invList rest (d + (c - b)) hwfr
    simp only [invList, wfRanges, Bool.and_eq_true, decide_eq_true_eq]
    refine ⟨⟨⟨hc, hb⟩, ?_⟩, ih⟩
    cases rest with
    | nil => rfl
    | cons a1 rest1 =>
      cases rest1 with
      | nil => simp [wfRanges] at hwfr
      | cons b1 rest2 =>
        cases rest2 with
        | nil => simp [wfRanges] at hwfr
        | cons c1 rest3 =>
          simp only [startLB, decide_eq_true_eq] at hs
          simp only [invList, startLB, decide_eq_true_eq]
          omega

/-- The inverted scan coincides with the non-inverted scan over the
`invList`-translated table. -/
theorem mapSimpleGo_true_eq (pos assoc : Int) :
    ∀ (rs : List Int) (d : Int),
      mapSimpleGo true pos assoc rs d = mapSimpleGo false pos assoc (invList rs (-d)) d
  | [], _ => rfl
  | [_], _ => rfl
  | [_, _], _ => rfl
  | a :: b :: c :: rest, d => by
    rw [mapSimpleGo_true_cons, invList, mapSimpleGo_false_cons,
      show a + -d = a - d from by ring,
      show -d + (c - b) = -(d + b - c) from by ring,
      mapSimpleGo_true_eq pos assoc rest (d + b - c)]

/-- `findHitGo` version of `mapSimpleGo_true_eq`. -/
theorem findHitGo_true_eq (pos : Int) :
    ∀ (rs : List Int) (d : Int),
      findHitGo true pos rs d = findHitGo false pos (invList rs (-d)) d
  | [], _ => rfl
  | [_], _ => rfl
  | [_, _], _ => rfl
  | a :: b :: c :: rest, d => by
    rw [findHitGo_true_cons, invList, findHitGo_false_cons,
      show a + -d = a - d from by ring,
      show -d + (c - b) = -(d + b - c) from by ring,
      findHitGo_true_eq pos rest (d + b - c)]

theorem mapSimpleGo_eq_resultGo_pos (inverted : Bool) (pos assoc : Int) :
    ∀ (rs : List Int) (d : Int) (idx : Nat),
      mapSimpleGo inverted pos assoc rs d = (mapResultGo inverted pos assoc rs d idx).pos
  | [], _, _ => rfl
  | [_], _, _ => rfl
  | [_, _], _, _ => rfl
  | a :: b :: c :: rest, d, idx => by
    simp only [mapSimpleGo, mapResultGo]
    by_cases h1 : a - (if inverted then d else 0) > pos
    · simp [h1]
    · simp only [if_neg h1]
      by_cases h2 : pos ≤ a - (if inverted then d else 0) + (if inverted then c else b)
      · simp only [if_pos h2]
      · simp only [if_neg h2]
        exact mapSimpleGo_eq_resultGo_pos inverted pos assoc rest _ (idx + 1)

/-- The deletion-flag word produced on a scan hit is never zero. -/
theorem hitDelInfo_ne_zero (c1 c2 c3 : Prop) [Decidable c1] [Decidable c2] [Decidable c3] :
    (if c1 then (if c2 then DEL_AFTER else if c3 then DEL_BEFORE else DEL_ACROSS) ||| DEL_SIDE
     else if c2 then DEL_AFTER else if c3 then DEL_BEFORE else DEL_ACROSS) ≠ 0 := by
  split <;> split <;> (try split) <;> decide

/-- If `map_result` reports zero deletion flags, the scan fell through
every range. -/
theorem findHit_none_of_delInfo_zero (inverted : Bool) (pos assoc : Int) :
    ∀ (rs : List Int) (d : Int) (idx : Nat),
      (mapResultGo inverted pos assoc rs d idx).del_info = 0 →
      findHitGo inverted pos rs d = none
  | [], _, _, _ => rfl
  | [_], _, _, _ => rfl
  | [_, _], _, _, _ => rfl
  | a :: b :: c :: rest, d, idx, h => by
    simp only [mapResultGo] at h
    simp only [findHitGo]
    by_cases h1 : a - (if inverted then d else 0) > pos
    · rw [if_pos h1]
    · rw [if_neg h1] at h ⊢
      by_cases h2 : pos ≤ a - (if inverted then d else 0) + (if inverted then c else b)
      · rw [if_pos h2] at h
        exact absurd h (hitDelInfo_ne_zero _ _ _)
      · rw [if_neg h2] at h ⊢
        exact findHit_none_of_delInfo_zero inverted pos assoc rest _ (idx + 1) h

/-- On a well-formed table whose first start is at least `lo`, a
falling-through scan of a position beyond `lo` lands beyond `lo`. -/
theorem mapSimpleGo_lower_bound (pos assoc : Int) :
    ∀ (rs : List Int) (lo : Int), wfRanges rs = true →
      findHitGo false pos rs 0 = none → startLB lo rs = true → lo < pos →
      lo < mapSimpleGo false pos assoc rs 0
  | [], _, _, _, _, hlt => by simpa [mapSimpleGo] using hlt
  | [_], _, hwf, _, _, _ => by simp [wfRanges] at hwf
  | [_, _], _, hwf, _, _, _ => by simp [wfRanges] at hwf
  | a :: b :: c :: rest, lo, hwf, hnone, hlb, hlt => by
    simp only [wfRanges, Bool.and_eq_true, decide_eq_true_eq] at hwf
    obtain ⟨⟨⟨hb, hc⟩, hs⟩, hwfr⟩ := hwf
    simp only [startLB, decide_eq_true_eq] at hlb
    rw [findHitGo_false_cons] at hnone
    rw [mapSimpleGo_false_cons]
    by_cases h1 : a > pos
    · rw [if_pos h1]; omega
    · rw [if_neg h1] at hnone ⊢
      by_cases h2 : pos ≤ a + b
      · rw [if_pos h2] at hnone; exact absurd hnone (by simp)
      · rw [if_neg h2] at hnone ⊢
        rw [mapSimpleGo_shift pos assoc rest (0 + c - b)]
        have ih := mapSimpleGo_lower_bound pos assoc rest (a + b) hwfr
          ((findHitGo_false_none_shift pos rest _ 0).mp hnone) hs (by omega)
        omega

/-- Main round-trip induction: if the forward (non-inverted) scan of a
well-formed table falls through at `pos`, then scanning the mapped
position (shifted by any `e`) through the `invList`-translated table
recovers `pos` (shifted by `e`). -/
theorem roundtrip_gen (pos assoc assoc2 : Int) :
    ∀ (rs : List Int) (e : Int), wfRanges rs = true →
      findHitGo false pos rs 0 = none →
      mapSimpleGo false (mapSimpleGo false pos assoc rs 0 + e) assoc2 (invList rs e) 0 = pos + e
  | [], e, _, _ => by simp [mapSimpleGo, invList]
  | [_], _, hwf, _ => by simp [wfRanges] at hwf
  | [_, _], _, hwf, _ => by simp [wfRanges] at hwf
  | a :: b :: c :: rest, e, hwf, hnone => by
    simp only [wfRanges, Bool.and_eq_true, decide_eq_true_eq] at hwf
    obtain ⟨⟨⟨hb, hc⟩, hs⟩, hwfr⟩ := hwf
    rw [findHitGo_false_cons] at hnone
    rw [mapSimpleGo_false_cons pos]
    by_cases h1 : a > pos
    · rw [if_pos h1]
      simp only [invList]
      rw [mapSimpleGo_false_cons]
      rw [if_pos (show a + e > pos + 0 + e by omega)]
      ring
    · rw [if_neg h1] at hnone ⊢
      by_cases h2 : pos ≤ a + b
      · rw [if_pos h2] at hnone; exact absurd hnone (by simp)
      · rw [if_neg h2] at hnone ⊢
        have hnone0 : findHitGo false pos rest 0 = none :=
          (findHitGo_false_none_shift pos rest _ 0).mp hnone
        rw [mapSimpleGo_shift pos assoc rest (0 + c - b)]
        have hbound : a + b < mapSimpleGo false pos assoc rest 0 :=
          mapSimpleGo_lower_bound pos assoc rest (a + b) hwfr hnone0 hs (by omega)
        set S := mapSimpleGo false pos assoc rest 0 with hS
        simp only [invList]
        rw [mapSimpleGo_false_cons]
        rw [if_neg (show ¬a + e > S + (0 + c - b) + e by omega)]
        rw [if_neg (show ¬S + (0 + c - b) + e ≤ a + e + c by omega)]
        rw [mapSimpleGo_shift _ assoc2 (invList rest (e + (c - b))) (0 + b - c)]
        have ih := roundtrip_gen pos assoc assoc2 rest (e + (c - b)) hwfr hnone0
        rw [← hS] at ih
        rw [show S + (0 + c - b) + e = S + (e + (c - b)) from by ring, ih]
        ring

/-- C7: for every well-formed StepMap `m`, associativity `a ∈ {-1,+1}`
and position `p` not inside a deleted span (zero deletion flags in
`map_result`), mapping through `m` and then through `m.invert()` with
the complementary associativity returns `p`. -/
theorem C7_inversion_roundtrip (m : StepMap) (p a : Int) (ha : a = 1 ∨ a = -1)
    (hwf : wfRanges m.ranges = true)
    (hdel : (m.map_result p a).del_info = 0) :
    m.invert.map (m.map p a) (-a) = p := by
  obtain ⟨rs, inv⟩ := m
  cases inv
  case false =>
    have hnone : findHitGo false p rs 0 = none :=
      findHit_none_of_delInfo_zero false p a rs 0 0 hdel
    show mapSimpleGo true (mapSimpleGo false p a rs 0) (-a) rs 0 = p
    rw [mapSimpleGo_true_eq, neg_zero]
    have h := roundtrip_gen p a (-a) rs 0 hwf hnone
    simp only [add_zero] at h
    exact h
  case true =>
    have hnone : findHitGo true p rs 0 = none :=
      findHit_none_of_delInfo_zero true p a rs 0 0 hdel
    rw [findHitGo_true_eq, neg_zero] at hnone
    have hwf2 : wfRanges (invList rs 0) = true := wfRanges_invList rs 0 hwf
    show mapSimpleGo false (mapSimpleGo true p a rs 0) (-a) rs 0 = p
    rw [mapSimpleGo_true_eq, neg_zero]
    have h := roundtrip_gen p a (-a) (invList rs 0) 0 hwf2 hnone
    simp only [add_zero] at h
    have hrs : invList (invList rs 0) 0 = rs := by
      have h2 := invList_invList rs 0
      rwa [neg_zero] at h2
    have key : ∀ L : List Int, invList (invList rs 0) 0 = L →
        mapSimpleGo false (mapSimpleGo false p a (invList rs 0) 0) (-a) L 0 = p := by
      intro L hL
      rw [← hL]
      exact h
    exact key rs hrs

/-- C7 (witness): the StepMap `[2,4,0]` at position 8 with `assoc = 1`:
forward map gives 4 and the inverted map sends 4 back to 8. -/
theorem C7_witness :
    (StepMap.mk [2, 4, 0] false).invert.map ((StepMap.mk [2, 4, 0] false).map 8 1) (-1) = 8 :=
  C7_inversion_roundtrip (StepMap.mk [2, 4, 0] false) 8 1 (Or.inl rfl) (by decide) (by decide)

/-- `StepMap.map` agrees with the position of `StepMap.map_result`. -/
theorem stepMap_map_eq_result_pos (m : StepMap) (pos assoc : Int) :
    m.map pos assoc = (m.map_result pos assoc).pos :=
  mapSimpleGo_eq_resultGo_pos m.inverted pos assoc m.ranges 0 0

/-- When index `i` has no mirror partner, one iteration of the chain
loop just folds the step's mapped position and flags. -/
theorem mappingGo_step (m : Mapping) (assoc : Int) (k i : Nat) (pos : Int) (d : Nat)
    (hi : i < m.to_) (hmir : m.get_mirror i = none) :
    mappingGo m assoc (k + 1) i pos d =
      mappingGo m assoc k (i + 1) ((m.maps.getD i StepMap.empty).map_result pos assoc).pos
        (d ||| ((m.maps.getD i StepMap.empty).map_result pos assoc).del_info) := by
  simp only [mappingGo, if_pos hi]
  cases hr : ((m.maps.getD i StepMap.empty).map_result pos assoc).recover with
  | none => rfl
  | some rv => rw [hmir]

/-- Without mirror links the chain loop equals the plain fold of
`StepMap.map`, provided the fuel is exactly `to - i`. -/
theorem mappingGo_eq_fold (m : Mapping) (assoc : Int) (hm : m.mirror = []) :
    ∀ (fuel i : Nat), fuel = m.to_ - i → ∀ (pos : Int) (d : Nat),
      (mappingGo m assoc fuel i pos d).1 = mapFoldGo m.maps assoc fuel i pos := by
  intro fuel
  induction fuel with
  | zero => intro i _ pos d; rfl
  | succ k ih =>
    intro i hf pos d
    have hi : i < m.to_ := by omega
    have hmir : m.get_mirror i = none := by
      simp [Mapping.get_mirror, hm, getMirrorGo]
    rw [mappingGo_step m assoc k i pos d hi hmir, ih (i + 1) (by omega)]
    simp only [mapFoldGo]
    rw [stepMap_map_eq_result_pos]

/-- C10: the fast integer-only path (`map`) and the metadata path
(`map_result`) always agree on the mapped position — for every StepMap,
and for every Mapping whether or not it carries mirror links. -/
theorem C10_fast_path_agrees (m : StepMap) (c : Mapping) (pos assoc : Int) :
    m.map pos assoc = (m.map_result pos assoc).pos ∧
    c.map pos assoc = (c.map_result pos assoc).pos := by
  refine ⟨stepMap_map_eq_result_pos m pos assoc, ?_⟩
  simp only [Mapping.map, Mapping.map_result]
  by_cases hm : c.mirror.isEmpty
  · rw [if_pos hm]
    exact (mappingGo_eq_fold c assoc (List.isEmpty_iff.mp hm) (c.to_ - c.from_) c.from_
      rfl pos 0).symm
  · rw [if_neg hm]
